import Mathlib

/-!
# Verification of the benchmark-graph parsing/aggregation pipeline

Shallow embedding of `scripts/generate_graph.py`: the script reads a
delimited benchmark-results file, parses each data line into a typed row,
builds a DataFrame, and groups rows by method for plotting.

Strings are modelled as `List Char`.  Python `float` values are modelled as
exact rationals (`ℚ`): every claim compares parses of decimal strings, and
both sides of each comparison would round identically, so the rational value
is faithful.  Fallible Python operations (`int(...)`, `float(...)`,
`tokens[i]`, `df['Method']` on an empty frame) are modelled with `Option`:
`none` means the script raises and the run aborts.

Unmodelled corners of the Python numeric grammar, relied on by no claim:
underscore digit grouping (`"1_0"`), and the `inf`/`nan` spellings (the
latter is not a rational anyway).
-/

namespace GenerateGraph

/-- Characters treated as whitespace by Python `str.strip()` (ASCII subset). -/
def isPySpace (c : Char) : Bool :=
  c == ' ' || c == '\t' || c == '\n' || c == '\r' ||
  c == Char.ofNat 11 || c == Char.ofNat 12

/-- Python `str.strip()`: drop leading and trailing whitespace. -/
def pyStrip (s : List Char) : List Char :=
  ((s.dropWhile isPySpace).reverse.dropWhile isPySpace).reverse

/-- Worker for `splitComma`: `acc` holds the current field, reversed. -/
def splitCommaAux : List Char → List Char → List (List Char)
  | [], acc => [acc.reverse]
  | c :: cs, acc =>
      if c = ',' then acc.reverse :: splitCommaAux cs []
      else splitCommaAux cs (c :: acc)

/-- Python `s.split(',')`: split on every comma, keeping empty fields
(`''.split(',') == ['']`). -/
def splitComma (s : List Char) : List (List Char) :=
  splitCommaAux s []

/-- Python `s.replace(',', '.')`: substitute every comma by a period. -/
def replaceCommaDot (s : List Char) : List Char :=
  s.map (fun c => if c = ',' then '.' else c)

/-- Value of a digit string, accumulator style; `none` on a non-digit. -/
def digitsVal : List Char → Nat → Option Nat
  | [], acc => some acc
  | c :: cs, acc =>
      if c.isDigit then digitsVal cs (acc * 10 + (c.toNat - '0'.toNat))
      else none

/-- A non-empty all-digit string's value; `none` otherwise. -/
def parseDigits (cs : List Char) : Option Nat :=
  match cs with
  | [] => none
  | _ :: _ => digitsVal cs 0

/-- Python `int(s)` on a decimal string: optional surrounding whitespace,
optional sign, then one or more digits; raises (`none`) otherwise. -/
def pyInt (s : List Char) : Option Int :=
  match pyStrip s with
  | '+' :: rest => (parseDigits rest).map Int.ofNat
  | '-' :: rest => (parseDigits rest).map fun n => -(n : Int)
  | rest => (parseDigits rest).map Int.ofNat

/-- Value of a possibly-empty digit string (used for the two sides of a
decimal point: `float("5.")` and `float(".5")` are both legal). -/
def digitsVal0 (cs : List Char) : Option Nat :=
  digitsVal cs 0

/-- Unsigned mantissa of a Python float literal — `digits`, `digits.digits`,
`digits.`, or `.digits` — returned as (numerator, fraction-digit count), so
the mantissa's value is `numerator / 10 ^ count`. -/
def parseMantissaParts (cs : List Char) : Option (Nat × Nat) :=
  let intPart := cs.takeWhile Char.isDigit
  let rest := cs.dropWhile Char.isDigit
  match rest with
  | [] =>
      match intPart with
      | [] => none
      | _ :: _ => (digitsVal0 intPart).map fun n => (n, 0)
  | '.' :: frac =>
      if frac.all Char.isDigit then
        match intPart, frac with
        | [], [] => none
        | _, _ => do
            let ip ← digitsVal0 intPart
            let fp ← digitsVal0 frac
            some (ip * 10 ^ frac.length + fp, frac.length)
      else none
  | _ => none

/-- Signed non-empty digit string for a float exponent (no inner space). -/
def parseSignedDigits (cs : List Char) : Option Int :=
  match cs with
  | '+' :: rest => (parseDigits rest).map Int.ofNat
  | '-' :: rest => (parseDigits rest).map fun n => -(n : Int)
  | rest => (parseDigits rest).map Int.ofNat

/-- The exact rational `(num / 10 ^ k) * 10 ^ e`, assembled with `mkRat`
over plain `Nat` arithmetic so that the kernel can evaluate it. -/
def ratOfParts (num : Nat) (k : Nat) (e : Int) : ℚ :=
  match e with
  | Int.ofNat m => mkRat (Int.ofNat (num * 10 ^ m)) (10 ^ k)
  | Int.negSucc m => mkRat (Int.ofNat num) (10 ^ k * 10 ^ (m + 1))

/-- Unsigned Python float literal: mantissa, optional `e`/`E` exponent. -/
def pyFloatMag (u : List Char) : Option ℚ :=
  let mant := u.takeWhile fun c => !(c == 'e' || c == 'E')
  let rest := u.dropWhile fun c => !(c == 'e' || c == 'E')
  match rest with
  | [] => (parseMantissaParts mant).map fun p => ratOfParts p.1 p.2 0
  | _ :: expPart => do
      let p ← parseMantissaParts mant
      let e ← parseSignedDigits expPart
      some (ratOfParts p.1 p.2 e)

/-- Python `float(s)` on a decimal string: optional surrounding whitespace,
optional sign, mantissa, optional exponent; raises (`none`) otherwise. -/
def pyFloat (s : List Char) : Option ℚ :=
  match pyStrip s with
  | '+' :: rest => pyFloatMag rest
  | '-' :: rest => (pyFloatMag rest).map Rat.neg
  | rest => pyFloatMag rest

/-- One parsed benchmark observation: the `row` dict built per line. -/
structure Row where
  size : Int
  method : List Char
  computeTimeMs : ℚ
  totalTimeMs : ℚ
  memoryMb : ℚ
  gflops : ℚ
deriving DecidableEq, Repr

/-- The fields of one data line: `line.strip().split(',')`. -/
def tokensOf (line : List Char) : List (List Char) :=
  splitComma (pyStrip line)

/-- The `row` dict from the token list: `tokens[i]` out of range or a failed
`int`/`float` conversion raises (`none`), exactly as in the script. -/
def parseTokens (ts : List (List Char)) : Option Row := do
  let t0 ← ts.get? 0
  let size ← pyInt t0
  let t1 ← ts.get? 1
  let t2 ← ts.get? 2
  let ct ← pyFloat (replaceCommaDot t2)
  let t4 ← ts.get? 4
  let tt ← pyFloat (replaceCommaDot t4)
  let t6 ← ts.get? 6
  let mm ← pyFloat (replaceCommaDot t6)
  let t8 ← ts.get? 8
  let gf ← pyFloat (replaceCommaDot t8)
  some { size := size, method := t1, computeTimeMs := ct,
         totalTimeMs := tt, memoryMb := mm, gflops := gf }

/-- One iteration of the parsing loop on a raw line. -/
def parseLine (line : List Char) : Option Row :=
  parseTokens (tokensOf line)

/-- The parsing loop over `lines[1:]`: appends a row per line; the first
raising line aborts the whole run (`none`) — the script has no handler. -/
def parseLines : List (List Char) → Option (List Row)
  | [] => some []
  | l :: ls => do
      let r ← parseLine l
      let rs ← parseLines ls
      some (r :: rs)

/-- First-seen-order deduplication, the order `df['Method'].unique()`
iterates methods in; `seen` accumulates methods already emitted. -/
def firstSeen (seen : List (List Char)) : List (List Char) → List (List Char)
  | [] => []
  | m :: ms =>
      if m ∈ seen then firstSeen seen ms
      else m :: firstSeen (m :: seen) ms

/-- `df['Method'].unique()`: distinct methods in first-occurrence order. -/
def uniqueMethods (rows : List Row) : List (List Char) :=
  firstSeen [] (rows.map Row.method)

/-- `df[df['Method'] == method]`: the rows of one method, in frame order. -/
def methodSeries (rows : List Row) (m : List Char) : List Row :=
  rows.filter fun r => r.method = m

/-- The Dataset: each method in `unique()` order paired with its series. -/
def dataset (rows : List Row) : List (List Char × List Row) :=
  (uniqueMethods rows).map fun m => (m, methodSeries rows m)

/-- Building the grouped dataset from the DataFrame: `pd.DataFrame([])` has
no columns, so `df['Method']` raises `KeyError` when no row was parsed. -/
def buildDataset (rows : List Row) : Option (List (List Char × List Row)) :=
  match rows with
  | [] => none
  | _ :: _ => some (dataset rows)

/-- The whole pipeline on the file's lines: `lines[0]` is the header
(raising `IndexError` on an empty file), the rest is parsed and grouped. -/
def runPipeline (lines : List (List Char)) : Option (List (List Char × List Row)) :=
  match lines with
  | [] => none
  | _hdr :: rest => do
      let rows ← parseLines rest
      buildDataset rows

/-- A line is blank when it is empty or all whitespace. -/
def isBlank (line : List Char) : Bool :=
  line.all isPySpace

/-- The row construction with the comma-to-period substitution omitted,
parsing each raw token directly (the spec-side definition compared with
`parseTokens` in the refinement claim). -/
def parseTokensRaw (ts : List (List Char)) : Option Row := do
  let t0 ← ts.get? 0
  let size ← pyInt t0
  let t1 ← ts.get? 1
  let t2 ← ts.get? 2
  let ct ← pyFloat t2
  let t4 ← ts.get? 4
  let tt ← pyFloat t4
  let t6 ← ts.get? 6
  let mm ← pyFloat t6
  let t8 ← ts.get? 8
  let gf ← pyFloat t8
  some { size := size, method := t1, computeTimeMs := ct,
         totalTimeMs := tt, memoryMb := mm, gflops := gf }

/-- `parseLine` with no decimal-separator normalization at all. -/
def parseLineRaw (line : List Char) : Option Row :=
  parseTokensRaw (tokensOf line)

/-! ## Helper lemmas -/

theorem splitCommaAux_no_comma (s : List Char) :
    ∀ acc, (∀ c ∈ acc, c ≠ ',') → ∀ t ∈ splitCommaAux s acc, ',' ∉ t := by
  induction s with
  | nil =>
      intro acc hacc t ht
      simp only [splitCommaAux, List.mem_singleton] at ht
      subst ht
      intro hmem
      exact hacc ',' (List.mem_reverse.mp hmem) rfl
  | cons c cs ih =>
      intro acc hacc t ht
      by_cases hc : c = ','
      · subst hc
        simp only [splitCommaAux, if_true] at ht
        rcases List.mem_cons.mp ht with ht | ht
        · subst ht
          intro hmem
          exact hacc ',' (List.mem_reverse.mp hmem) rfl
        · exact ih [] (by simp) t ht
      · simp only [splitCommaAux, if_neg hc] at ht
        refine ih (c :: acc) ?_ t ht
        intro d hd
        rcases List.mem_cons.mp hd with rfl | hd
        · exact hc
        · exact hacc d hd

theorem splitComma_no_comma (s : List Char) :
    ∀ t ∈ splitComma s, ',' ∉ t :=
  splitCommaAux_no_comma s [] (by simp)

theorem replaceCommaDot_of_no_comma {t : List Char} (h : ',' ∉ t) :
    replaceCommaDot t = t := by
  induction t with
  | nil => rfl
  | cons c cs ih =>
      simp only [List.mem_cons, not_or] at h
      simp only [replaceCommaDot, List.map_cons, List.cons.injEq]
      constructor
      · rw [if_neg fun hc => h.1 hc.symm]
      · exact ih h.2

theorem tokensOf_no_comma (line : List Char) :
    ∀ t ∈ tokensOf line, ',' ∉ t :=
  splitComma_no_comma (pyStrip line)

theorem pyStrip_of_blank {line : List Char} (h : isBlank line = true) :
    pyStrip line = [] := by
  have hdrop : line.dropWhile isPySpace = [] := by
    rw [List.dropWhile_eq_nil_iff]
    exact fun c hc => List.all_eq_true.mp h c hc
  simp [pyStrip, hdrop]

theorem parseLine_of_blank {line : List Char} (h : isBlank line = true) :
    parseLine line = none := by
  unfold parseLine tokensOf
  rw [pyStrip_of_blank h]
  rfl

theorem parseLines_of_mem_none {l : List Char} :
    ∀ {ls : List (List Char)}, l ∈ ls → parseLine l = none →
      parseLines ls = none := by
  intro ls
  induction ls with
  | nil => intro h; exact absurd h (List.not_mem_nil l)
  | cons a as ih =>
      intro hmem hbad
      rcases List.mem_cons.mp hmem with rfl | hmem
      · simp [parseLines, hbad]
      · cases ha : parseLine a with
        | none => simp [parseLines, ha]
        | some r => simp [parseLines, ha, ih hmem hbad]

theorem parseLines_length :
    ∀ {ls : List (List Char)} {rows : List Row},
      parseLines ls = some rows → rows.length = ls.length := by
  intro ls
  induction ls with
  | nil =>
      intro rows h
      simp only [parseLines, Option.some.injEq] at h
      subst h; rfl
  | cons a as ih =>
      intro rows h
      simp only [parseLines, Option.bind_eq_bind, Option.bind_eq_some] at h
      obtain ⟨r, _, rs, hrs, heq⟩ := h
      simp only [Option.some.injEq] at heq
      subst heq
      simp [ih hrs]

theorem parseLines_get :
    ∀ {ls : List (List Char)} {rows : List Row},
      parseLines ls = some rows →
      ∀ i (h1 : i < ls.length) (h2 : i < rows.length),
        parseLine (ls.get ⟨i, h1⟩) = some (rows.get ⟨i, h2⟩) := by
  intro ls
  induction ls with
  | nil => intro rows _ i h1; exact absurd h1 (by simp)
  | cons a as ih =>
      intro rows h i h1 h2
      simp only [parseLines, Option.bind_eq_bind, Option.bind_eq_some] at h
      obtain ⟨r, hr, rs, hrs, heq⟩ := h
      simp only [Option.some.injEq] at heq
      subst heq
      cases i with
      | zero => simpa using hr
      | succ n =>
          simp only [List.get_cons_succ]
          exact ih hrs n (Nat.lt_of_succ_lt_succ h1) (Nat.lt_of_succ_lt_succ h2)

theorem mem_firstSeen :
    ∀ (ms seen : List (List Char)) (a : List Char),
      a ∈ firstSeen seen ms ↔ a ∈ ms ∧ a ∉ seen := by
  intro ms
  induction ms with
  | nil => intro seen a; simp [firstSeen]
  | cons m ms' ih =>
      intro seen a
      by_cases hm : m ∈ seen
      · simp only [firstSeen, if_pos hm, ih, List.mem_cons]
        constructor
        · rintro ⟨ha, hns⟩; exact ⟨Or.inr ha, hns⟩
        · rintro ⟨ha | ha, hns⟩
          · subst ha; exact absurd hm hns
          · exact ⟨ha, hns⟩
      · simp only [firstSeen, if_neg hm, List.mem_cons, ih, not_or]
        constructor
        · rintro (rfl | ⟨ha, _, hns⟩)
          · exact ⟨Or.inl rfl, hm⟩
          · exact ⟨Or.inr ha, hns⟩
        · rintro ⟨rfl | ha, hns⟩
          · exact Or.inl rfl
          · by_cases hae : a = m
            · exact Or.inl hae
            · exact Or.inr ⟨ha, hae, hns⟩

theorem nodup_firstSeen :
    ∀ (ms seen : List (List Char)), (firstSeen seen ms).Nodup := by
  intro ms
  induction ms with
  | nil => intro seen; simp [firstSeen]
  | cons m ms' ih =>
      intro seen
      by_cases hm : m ∈ seen
      · simpa [firstSeen, if_pos hm] using ih seen
      · simp only [firstSeen, if_neg hm, List.nodup_cons]
        refine ⟨?_, ih (m :: seen)⟩
        rw [mem_firstSeen]
        rintro ⟨_, hns⟩
        exact hns (List.mem_cons_self m seen)

theorem length_methodSeries_eq_count (rows : List Row) (m : List Char) :
    (methodSeries rows m).length = (rows.map Row.method).count m := by
  unfold methodSeries
  induction rows with
  | nil => rfl
  | cons r rs ih =>
      simp only [List.filter_cons, List.map_cons, List.count_cons]
      by_cases h : r.method = m
      · simp [h, ih]
      · simp [h, ih]

theorem sum_map_add_nat {α : Type} (l : List α) (f g : α → Nat) :
    (l.map fun a => f a + g a).sum = (l.map f).sum + (l.map g).sum := by
  induction l with
  | nil => rfl
  | cons x t ih => simp [ih]; omega

theorem sum_map_indicator {α : Type} [DecidableEq α] (x : α) :
    ∀ u : List α, u.Nodup →
      (u.map fun a => if x = a then 1 else 0).sum = if x ∈ u then 1 else 0 := by
  intro u
  induction u with
  | nil => intro _; simp
  | cons b u' ih =>
      intro hnd
      have hb : b ∉ u' := (List.nodup_cons.mp hnd).1
      have hnd' : u'.Nodup := (List.nodup_cons.mp hnd).2
      by_cases hxb : x = b
      · subst hxb
        simp [ih hnd', hb]
      · simp [hxb, ih hnd', List.mem_cons]

theorem sum_count_eq_length {α : Type} [BEq α] [LawfulBEq α] [DecidableEq α]
    (u : List α) (hnd : u.Nodup) :
    ∀ l : List α, (∀ a ∈ l, a ∈ u) →
      (u.map fun a => l.count a).sum = l.length := by
  intro l
  induction l with
  | nil => intro _; simp
  | cons x t ih =>
      intro hcov
      have hx : x ∈ u := hcov x (List.mem_cons_self x t)
      have hcovt : ∀ a ∈ t, a ∈ u := fun a ha => hcov a (List.mem_cons_of_mem x ha)
      have hstep : (u.map fun a => (x :: t).count a)
          = u.map fun a => t.count a + if x = a then 1 else 0 := by
        refine List.map_congr_left fun a _ => ?_
        rw [List.count_cons]
        simp [beq_iff_eq]
      rw [hstep, sum_map_add_nat, ih hcovt, sum_map_indicator x u hnd, if_pos hx]
      simp

theorem sum_series_lengths (rows : List Row) :
    ((uniqueMethods rows).map fun m => (methodSeries rows m).length).sum
      = rows.length := by
  have hcongr : ((uniqueMethods rows).map fun m => (methodSeries rows m).length)
      = (uniqueMethods rows).map fun m => (rows.map Row.method).count m :=
    List.map_congr_left fun m _ => length_methodSeries_eq_count rows m
  have hcov : ∀ a ∈ rows.map Row.method, a ∈ uniqueMethods rows := by
    intro a ha
    exact (mem_firstSeen _ _ _).mpr ⟨ha, List.not_mem_nil a⟩
  rw [hcongr, sum_count_eq_length (uniqueMethods rows) (nodup_firstSeen _ _)
    (rows.map Row.method) hcov, List.length_map]

/-- Position of the first occurrence of `a` in a list of method names. -/
def idxOf (a : List Char) : List (List Char) → Nat
  | [] => 0
  | b :: l => if b = a then 0 else idxOf a l + 1

theorem idxOf_cons_self (a : List Char) (l : List (List Char)) :
    idxOf a (a :: l) = 0 := by
  simp [idxOf]

theorem idxOf_cons_ne {a b : List Char} (l : List (List Char)) (h : b ≠ a) :
    idxOf a (b :: l) = idxOf a l + 1 := by
  simp [idxOf, h]

theorem firstSeen_idxOf_lt {a b : List Char} (hab : a ≠ b) :
    ∀ (ms seen : List (List Char)), a ∉ seen → b ∉ seen →
      a ∈ ms → b ∈ ms → idxOf a ms < idxOf b ms →
      idxOf a (firstSeen seen ms) < idxOf b (firstSeen seen ms) := by
  intro ms
  induction ms with
  | nil => intro seen _ _ ha; exact absurd ha (List.not_mem_nil a)
  | cons c ms' ih =>
      intro seen hasn hbsn ha hb hord
      by_cases hca : c = a
      · subst hca
        simp only [firstSeen, if_neg hasn]
        rw [idxOf_cons_self, idxOf_cons_ne _ hab]
        exact Nat.succ_pos _
      · by_cases hcb : c = b
        · subst hcb
          rw [idxOf_cons_self, idxOf_cons_ne _ (Ne.symm hab)] at hord
          exact absurd hord (Nat.not_lt_zero _)
        · rw [idxOf_cons_ne _ hca, idxOf_cons_ne _ hcb] at hord
          have hord' : idxOf a ms' < idxOf b ms' := Nat.lt_of_succ_lt_succ hord
          have ha' : a ∈ ms' := by
            rcases List.mem_cons.mp ha with h | h
            · exact absurd h.symm hca
            · exact h
          have hb' : b ∈ ms' := by
            rcases List.mem_cons.mp hb with h | h
            · exact absurd h.symm hcb
            · exact h
          by_cases hcs : c ∈ seen
          · simp only [firstSeen, if_pos hcs]
            exact ih seen hasn hbsn ha' hb' hord'
          · simp only [firstSeen, if_neg hcs]
            rw [idxOf_cons_ne _ hca, idxOf_cons_ne _ hcb]
            have hasn' : a ∉ c :: seen := by
              intro h
              rcases List.mem_cons.mp h with h | h
              · exact hca h.symm
              · exact hasn h
            have hbsn' : b ∉ c :: seen := by
              intro h
              rcases List.mem_cons.mp h with h | h
              · exact hcb h.symm
              · exact hbsn h
            exact Nat.succ_lt_succ (ih (c :: seen) hasn' hbsn' ha' hb' hord')

theorem optionBindCongr {α β : Type} {o : Option α} {f g : α → Option β}
    (h : ∀ a, o = some a → f a = g a) : (o >>= f) = (o >>= g) := by
  cases o with
  | none => rfl
  | some a => exact h a rfl

theorem parseTokens_congr {ts1 ts2 : List (List Char)}
    (h : ∀ j, j < 9 → j ≠ 3 → j ≠ 5 → ts1.get? j = ts2.get? j) :
    parseTokens ts1 = parseTokens ts2 := by
  unfold parseTokens
  rw [h 0 (by decide) (by decide) (by decide), h 1 (by decide) (by decide) (by decide),
    h 2 (by decide) (by decide) (by decide), h 4 (by decide) (by decide) (by decide),
    h 6 (by decide) (by decide) (by decide), h 8 (by decide) (by decide) (by decide)]

theorem parseTokens_raw_of_no_comma {ts : List (List Char)}
    (h : ∀ t ∈ ts, ',' ∉ t) :
    parseTokens ts = parseTokensRaw ts := by
  unfold parseTokens parseTokensRaw
  refine optionBindCongr fun t0 h0 => ?_
  refine optionBindCongr fun size _ => ?_
  refine optionBindCongr fun t1 h1 => ?_
  refine optionBindCongr fun t2 h2 => ?_
  rw [replaceCommaDot_of_no_comma (h t2 (List.get?_mem h2))]
  refine optionBindCongr fun ct _ => ?_
  refine optionBindCongr fun t4 h4 => ?_
  rw [replaceCommaDot_of_no_comma (h t4 (List.get?_mem h4))]
  refine optionBindCongr fun tt _ => ?_
  refine optionBindCongr fun t6 h6 => ?_
  rw [replaceCommaDot_of_no_comma (h t6 (List.get?_mem h6))]
  refine optionBindCongr fun mm _ => ?_
  refine optionBindCongr fun t8 h8 => ?_
  rw [replaceCommaDot_of_no_comma (h t8 (List.get?_mem h8))]

theorem runPipeline_eq_some {hdr : List Char} {ls : List (List Char)}
    {ds : List (List Char × List Row)} :
    runPipeline (hdr :: ls) = some ds ↔
      ∃ rows, parseLines ls = some rows ∧ rows ≠ [] ∧ ds = dataset rows := by
  simp only [runPipeline, Option.bind_eq_bind, Option.bind_eq_some]
  constructor
  · rintro ⟨rows, hrows, hbd⟩
    cases rows with
    | nil => simp [buildDataset] at hbd
    | cons r rs =>
        refine ⟨r :: rs, hrows, by simp, ?_⟩
        simp only [buildDataset, Option.some.injEq] at hbd
        exact hbd.symm
  · rintro ⟨rows, hrows, hne, rfl⟩
    refine ⟨rows, hrows, ?_⟩
    cases rows with
    | nil => exact absurd rfl hne
    | cons r rs => simp [buildDataset]

theorem runPipeline_none_of_parseLines_none {hdr : List Char}
    {ls : List (List Char)} (h : parseLines ls = none) :
    runPipeline (hdr :: ls) = none := by
  simp [runPipeline, h]

theorem parseLines_congr :
    ∀ {ls1 ls2 : List (List Char)}, ls1.length = ls2.length →
      (∀ i (h1 : i < ls1.length) (h2 : i < ls2.length),
        parseLine (ls1.get ⟨i, h1⟩) = parseLine (ls2.get ⟨i, h2⟩)) →
      parseLines ls1 = parseLines ls2 := by
  intro ls1
  induction ls1 with
  | nil =>
      intro ls2 hlen _
      cases ls2 with
      | nil => rfl
      | cons b bs => simp at hlen
  | cons a as ih =>
      intro ls2 hlen hpt
      cases ls2 with
      | nil => simp at hlen
      | cons b bs =>
          have h0 : parseLine a = parseLine b := hpt 0 (by simp) (by simp)
          have htail : parseLines as = parseLines bs := by
            refine ih (by simpa using hlen) ?_
            intro i h1 h2
            exact hpt (i + 1) (by simpa using Nat.succ_lt_succ h1)
              (by simpa using Nat.succ_lt_succ h2)
          simp [parseLines, h0, htail]

/-! ## Concrete example inputs -/

def exHeader : List Char :=
  "Size,Method,Compute,Unused,Total,Unused,Memory,Unused,GFlops".data

def exNaive : List Char := "128,Naive,10.0,2,12.0,0,50.0,0,1.6".data

def exBlocked : List Char := "256,Blocked,5.0,2,6.0,0,40.0,0,12.8".data

def exNaive2 : List Char := "512,Naive,80.0,2,90.0,0,50.0,0,1.2".data

def exBadSize : List Char := "abc,Naive,10.0,2,12.0,0,50.0,0,1.6".data

def exQuoted : List Char :=
  "128,Naive,\"10,0\",2,\"12,0\",0,\"50,0\",0,\"1,6\"".data

def exCommaGflops : List Char := "128,Naive,10.0,2,12.0,0,50.0,0,12,5".data

def exNaiveAlt : List Char := "128,Naive,10.0,999,12.0,888,50.0,0,1.6".data

def exNaiveRow : Row :=
  { size := 128, method := "Naive".data, computeTimeMs := 10,
    totalTimeMs := 12, memoryMb := 50, gflops := mkRat 8 5 }

def exBlockedRow : Row :=
  { size := 256, method := "Blocked".data, computeTimeMs := 5,
    totalTimeMs := 6, memoryMb := 40, gflops := mkRat 64 5 }

def exNaive2Row : Row :=
  { size := 512, method := "Naive".data, computeTimeMs := 80,
    totalTimeMs := 90, memoryMb := 50, gflops := mkRat 6 5 }

def exRows : List Row := [exNaiveRow, exBlockedRow, exNaive2Row]

def exDs : List (List Char × List Row) :=
  [("Naive".data, [exNaiveRow, exNaive2Row]), ("Blocked".data, [exBlockedRow])]

/-! ## Claims -/

/-- C1 counterexample: an input holding a valid data line and a malformed
one (non-numeric size) yields no Dataset at all — the loop has no handler,
int() raises, the run aborts, and the valid record is lost, contradicting
skip-and-continue. -/
theorem C1_cex_malformed_aborts :
    parseLine exNaive = some exNaiveRow ∧
    parseLine exBadSize = none ∧
    runPipeline [exHeader, exNaive, exBadSize] = none :=
  ⟨by decide, by decide, by decide⟩

/-- C1 (amended): a malformed data line anywhere among the data lines
aborts the whole run — no Dataset is produced and the valid lines yield no
records. -/
theorem C1_amended_malformed_aborts (hdr l : List Char)
    (ls : List (List Char)) (hmem : l ∈ ls) (hbad : parseLine l = none) :
    runPipeline (hdr :: ls) = none :=
  runPipeline_none_of_parseLines_none (parseLines_of_mem_none hmem hbad)

theorem C1_amended_malformed_aborts_witness :
    runPipeline [exHeader, exNaive, exBadSize] = none :=
  C1_amended_malformed_aborts exHeader exBadSize [exNaive, exBadSize]
    (by decide) (by decide)

/-- C2 counterexample: the gflops field written `12,5` parses to 12, not
12.5 — the comma is consumed as a field delimiter, never recovered as a
decimal separator. -/
theorem C2_cex_comma_decimal :
    (parseLine exCommaGflops).map Row.gflops = some (12 : ℚ) ∧
    (12 : ℚ) ≠ mkRat 25 2 :=
  ⟨by decide, by decide⟩

/-- C2 (amended): splitting runs before normalization, so no token ever
contains a comma and the per-field comma-to-period substitution never
fires; a gflops field written `12,5` is split into two fields and the
parsed gflops value is 12, not 12.5. -/
theorem C2_amended_comma_is_delimiter (line : List Char) :
    (∀ t ∈ tokensOf line, replaceCommaDot t = t) ∧
    (parseLine exCommaGflops).map Row.gflops = some (12 : ℚ) :=
  ⟨fun t ht => replaceCommaDot_of_no_comma (tokensOf_no_comma line t ht),
   by decide⟩

theorem C2_amended_comma_is_delimiter_witness :
    replaceCommaDot ("10.0".data) = "10.0".data :=
  (C2_amended_comma_is_delimiter exNaive).1 ("10.0".data) (by decide)

/-- C3 counterexample: an input consisting of only the header line makes
the pipeline raise — the empty DataFrame has no Method column, so grouping
fails — rather than complete with an empty Dataset. -/
theorem C3_cex_header_only_raises :
    runPipeline [exHeader] = none := by
  decide

/-- C3 (amended): a header-only input parses to zero records without any
parse error, but the pipeline then aborts when it selects the Method
column of the empty DataFrame; it does not complete normally. -/
theorem C3_amended_header_only (hdr : List Char) :
    parseLines [] = some [] ∧ buildDataset [] = none ∧
    runPipeline [hdr] = none :=
  ⟨rfl, rfl, rfl⟩

/-- C7 counterexample: appending one trailing blank line changes the
result — the run aborts (int() fails on the empty token) instead of
producing the same Dataset as without the blank line. -/
theorem C7_cex_trailing_blank :
    isBlank ("\n".data) = true ∧
    runPipeline [exHeader, exNaive, "\n".data]
      ≠ runPipeline [exHeader, exNaive] :=
  ⟨by decide, by decide⟩

/-- C7 (amended): trailing blank lines are not ignored — a blank line
strips to the empty string, splits to one empty token, int() fails, and
the run aborts with no Dataset. -/
theorem C7_amended_trailing_blank_aborts (hdr b : List Char)
    (ls : List (List Char)) (hb : isBlank b = true) :
    runPipeline (hdr :: (ls ++ [b])) = none :=
  runPipeline_none_of_parseLines_none
    (parseLines_of_mem_none
      (List.mem_append_right ls (List.mem_singleton.mpr rfl))
      (parseLine_of_blank hb))

theorem C7_amended_trailing_blank_aborts_witness :
    isBlank ("\n".data) = true ∧
    runPipeline [exHeader, exNaive, "\n".data] = none :=
  ⟨by decide,
   C7_amended_trailing_blank_aborts exHeader ("\n".data) [exNaive] (by decide)⟩

/-- C10: a token produced by splitting on the comma delimiter contains no
comma, so the per-field substitution of comma by period is the identity on
every token and the parser equals, extensionally, the variant that parses
each raw token with no decimal-separator normalization. -/
theorem C10_replace_is_identity_refinement :
    ∀ line : List Char,
      (∀ t ∈ tokensOf line, ',' ∉ t) ∧ parseLine line = parseLineRaw line :=
  fun line =>
    ⟨tokensOf_no_comma line,
     parseTokens_raw_of_no_comma (tokensOf_no_comma line)⟩

theorem C10_replace_is_identity_refinement_witness :
    parseLine exQuoted = parseLineRaw exQuoted :=
  (C10_replace_is_identity_refinement exQuoted).2

/-- C4: when distinct methods A and B both occur among the parsed records
and the first A-record precedes the first B-record, the Dataset's method
iteration order places A before B, however the records interleave
afterward. -/
theorem C4_method_iteration_order (hdr : List Char) (ls : List (List Char))
    (rows : List Row) (ds : List (List Char × List Row)) (A B : List Char)
    (hrun : runPipeline (hdr :: ls) = some ds)
    (hparse : parseLines ls = some rows)
    (hAB : A ≠ B)
    (hA : A ∈ rows.map Row.method) (hB : B ∈ rows.map Row.method)
    (hord : idxOf A (rows.map Row.method) < idxOf B (rows.map Row.method)) :
    idxOf A (ds.map Prod.fst) < idxOf B (ds.map Prod.fst) := by
  obtain ⟨rows2, hp2, hne, hds⟩ := runPipeline_eq_some.mp hrun
  rw [hparse] at hp2
  obtain rfl : rows = rows2 := Option.some.inj hp2
  subst hds
  have hmap : (dataset rows).map Prod.fst = uniqueMethods rows := by
    simp only [dataset, List.map_map]
    have hcomp : (Prod.fst ∘ fun m => (m, methodSeries rows m))
        = fun m : List Char => m := rfl
    rw [hcomp]
    simp
  rw [hmap]
  exact firstSeen_idxOf_lt hAB (rows.map Row.method) []
    (List.not_mem_nil A) (List.not_mem_nil B) hA hB hord

theorem C4_method_iteration_order_witness :
    idxOf ("Naive".data) (exDs.map Prod.fst)
      < idxOf ("Blocked".data) (exDs.map Prod.fst) :=
  C4_method_iteration_order exHeader [exNaive, exBlocked, exNaive2]
    exRows exDs ("Naive".data) ("Blocked".data)
    (by decide) (by decide) (by decide) (by decide) (by decide) (by decide)

/-- C5 counterexample: the spec's example line with quoted comma-decimal
fields does not parse to the stated record — the quote characters survive
the split, float() fails on them, so the line yields no record and the run
produces no Dataset. -/
theorem C5_cex_quoted_line :
    parseLine exQuoted = none ∧ runPipeline [exHeader, exQuoted] = none :=
  ⟨by decide, by decide⟩

/-- C5 (amended): every data line that parses takes size from field 0,
method from field 1, compute time from field 2, total time from field 4,
memory from field 6 and gflops from field 8, each numeric field via the
comma-to-period substitution then conversion; the quoted example line
itself fails numeric conversion and yields no record. -/
theorem C5_amended_field_positions (l : List Char) (r : Row)
    (h : parseLine l = some r) :
    ((tokensOf l).get? 0).bind pyInt = some r.size ∧
    (tokensOf l).get? 1 = some r.method ∧
    ((tokensOf l).get? 2).bind (fun t => pyFloat (replaceCommaDot t))
      = some r.computeTimeMs ∧
    ((tokensOf l).get? 4).bind (fun t => pyFloat (replaceCommaDot t))
      = some r.totalTimeMs ∧
    ((tokensOf l).get? 6).bind (fun t => pyFloat (replaceCommaDot t))
      = some r.memoryMb ∧
    ((tokensOf l).get? 8).bind (fun t => pyFloat (replaceCommaDot t))
      = some r.gflops ∧
    parseLine exQuoted = none := by
  unfold parseLine parseTokens at h
  simp only [Option.bind_eq_bind, Option.bind_eq_some] at h
  obtain ⟨t0, h0, size, hsz, t1, h1, t2, h2, ct, hct, t4, h4, tt2, htt,
    t6, h6, mm2, hmm, t8, h8, gf, hgf, heq⟩ := h
  simp only [Option.some.injEq] at heq
  subst heq
  refine ⟨?_, ?_, ?_, ?_, ?_, ?_, by decide⟩
  · rw [h0]; simpa using hsz
  · simpa using h1
  · rw [h2]; simpa using hct
  · rw [h4]; simpa using htt
  · rw [h6]; simpa using hmm
  · rw [h8]; simpa using hgf

theorem C5_amended_field_positions_witness :
    ((tokensOf exNaive).get? 0).bind pyInt = some exNaiveRow.size ∧
    (tokensOf exNaive).get? 1 = some exNaiveRow.method ∧
    ((tokensOf exNaive).get? 2).bind (fun t => pyFloat (replaceCommaDot t))
      = some exNaiveRow.computeTimeMs ∧
    ((tokensOf exNaive).get? 4).bind (fun t => pyFloat (replaceCommaDot t))
      = some exNaiveRow.totalTimeMs ∧
    ((tokensOf exNaive).get? 6).bind (fun t => pyFloat (replaceCommaDot t))
      = some exNaiveRow.memoryMb ∧
    ((tokensOf exNaive).get? 8).bind (fun t => pyFloat (replaceCommaDot t))
      = some exNaiveRow.gflops ∧
    parseLine exQuoted = none :=
  C5_amended_field_positions exNaive exNaiveRow (by decide)

/-- C6: the parsed records appear one per data line in input line order,
and each Method Series is an order-preserving sublist of them keeping
every record of its method with multiplicity — no reordering and no
deduplication. -/
theorem C6_series_input_order (hdr : List Char) (ls : List (List Char))
    (rows : List Row) (ds : List (List Char × List Row))
    (hrun : runPipeline (hdr :: ls) = some ds)
    (hparse : parseLines ls = some rows) :
    rows.length = ls.length ∧
    (∀ i (h1 : i < ls.length) (h2 : i < rows.length),
      parseLine (ls.get ⟨i, h1⟩) = some (rows.get ⟨i, h2⟩)) ∧
    (∀ p ∈ ds, List.Sublist p.2 rows ∧
      ∀ r : Row, r.method = p.1 → p.2.count r = rows.count r) := by
  obtain ⟨rows2, hp2, hne, hds⟩ := runPipeline_eq_some.mp hrun
  rw [hparse] at hp2
  obtain rfl : rows = rows2 := Option.some.inj hp2
  subst hds
  refine ⟨parseLines_length hparse, parseLines_get hparse, ?_⟩
  intro p hp
  simp only [dataset, List.mem_map] at hp
  obtain ⟨m, hm, rfl⟩ := hp
  constructor
  · exact List.filter_sublist rows
  · intro r hr2
    unfold methodSeries
    rw [List.count_filter]
    simpa using hr2

theorem C6_series_input_order_witness :
    exRows.length = [exNaive, exBlocked, exNaive2].length ∧
    parseLine exBlocked = some exBlockedRow ∧
    List.Sublist [exNaiveRow, exNaive2Row] exRows ∧
    [exNaiveRow, exNaive2Row].count exNaiveRow = exRows.count exNaiveRow := by
  have h := C6_series_input_order exHeader [exNaive, exBlocked, exNaive2]
    exRows exDs (by decide) (by decide)
  have hp := h.2.2 ("Naive".data, [exNaiveRow, exNaive2Row]) (by decide)
  exact ⟨h.1, h.2.1 1 (by decide) (by decide), hp.1,
    hp.2 exNaiveRow (by decide)⟩

/-- C8: the record counts of all Method Series sum to the number of parsed
records, which equals the number of data lines — grouping neither drops
nor duplicates any parsed record. -/
theorem C8_group_completeness (hdr : List Char) (ls : List (List Char))
    (rows : List Row) (ds : List (List Char × List Row))
    (hrun : runPipeline (hdr :: ls) = some ds)
    (hparse : parseLines ls = some rows) :
    (ds.map fun p => p.2.length).sum = rows.length ∧
    rows.length = ls.length := by
  obtain ⟨rows2, hp2, hne, hds⟩ := runPipeline_eq_some.mp hrun
  rw [hparse] at hp2
  obtain rfl : rows = rows2 := Option.some.inj hp2
  subst hds
  refine ⟨?_, parseLines_length hparse⟩
  simp only [dataset, List.map_map]
  have hcomp : ((fun p : List Char × List Row => p.2.length)
      ∘ fun m => (m, methodSeries rows m))
      = fun m => (methodSeries rows m).length := rfl
  rw [hcomp]
  exact sum_series_lengths rows

theorem C8_group_completeness_witness :
    (exDs.map fun p => p.2.length).sum = exRows.length ∧
    exRows.length = [exNaive, exBlocked, exNaive2].length :=
  C8_group_completeness exHeader [exNaive, exBlocked, exNaive2] exRows exDs
    (by decide) (by decide)

/-- C9: the reserved token positions 3 and 5 never influence the result —
for two inputs of the same shape whose lines agree on every consumed token
position, the pipeline results are identical. -/
theorem C9_unused_fields_irrelevant (hdr : List Char)
    (ls1 ls2 : List (List Char))
    (hlen : ls1.length = ls2.length)
    (hag : ∀ i (h1 : i < ls1.length) (h2 : i < ls2.length),
      ∀ j, j < 9 → j ≠ 3 → j ≠ 5 →
        (tokensOf (ls1.get ⟨i, h1⟩)).get? j
          = (tokensOf (ls2.get ⟨i, h2⟩)).get? j) :
    runPipeline (hdr :: ls1) = runPipeline (hdr :: ls2) := by
  have hpl : parseLines ls1 = parseLines ls2 :=
    parseLines_congr hlen fun i h1 h2 => parseTokens_congr (hag i h1 h2)
  simp only [runPipeline, hpl]

theorem C9_unused_fields_irrelevant_witness :
    runPipeline [exHeader, exNaive] = runPipeline [exHeader, exNaiveAlt] :=
  C9_unused_fields_irrelevant exHeader [exNaive] [exNaiveAlt]
    (by decide) (by decide)

end GenerateGraph
